import Mathlib

/-!
# Verification of blutgang's backend-selection core

Shallow embedding of `src/rpc/types.rs` (`Status`, `Rpc`,
`Rpc::update_latency`) and `src/balancer/selection/select.rs`
(`pick`, `argsort`, the default `algo`), with proofs about the
selection and moving-average behaviour.

Modelling conventions:
* `f64` values are modelled as `ℚ`; the Rust cast `f64 as u64` /
  `f64 as usize` is `f64AsU64` (truncation toward zero, saturating at the
  bounds of the unsigned range, which for rationals agrees with
  `Int.toNat ∘ Rat.floor` capped above).
* `u32`, `u64`, `u128` and `usize` are modelled as `Nat`; the one
  subtraction the code performs (`time - last_used` on `u128`) is modelled
  by `checkedSub`, whose `none` result corresponds to the overflow-checked
  panic of Rust arithmetic.
* Fallible operations (slice indexing, `Vec::remove(0)`) yield `Option`
  results: `none` models a Rust panic.
* Mutation through `&mut` references is modelled by explicit state
  passing: `algo` returns the updated filtered list and `pick` writes the
  updated entries back to their original positions (`writeBack`), which is
  what the aliasing `&mut` references in `RpcIndexed` do in place.
* Rust's `sort_unstable_by_key` leaves the relative order of equal keys
  unspecified; the model fixes it to insertion sort (stable, and the
  algorithm Rust actually runs on small slices).
-/

namespace Blutgang

/-- Modelled from the spec: the `RouteGroup` type and the `group` field of
`Rpc` are used by `select.rs` but declared outside the provided sources;
per spec §6 route groups are opaque equality-comparable tags supplied
externally, so they are modelled as a tag type with decidable equality and
a default element (`RouteGroup::default()` is used by the tests). -/
abbrev RouteGroup := Nat

/-- `Status` from `src/rpc/types.rs`.  All numeric fields are kept with
their source names; the commented-out `throughput` field is omitted. -/
structure Status where
  is_erroring : Bool
  last_error : Nat
  latency : ℚ
  latency_data : List ℚ
  ma_length : ℚ
deriving DecidableEq, Repr

/-- `#[derive(Default)]` for `Status`: everything zero / empty / false. -/
def Status.default : Status :=
  { is_erroring := false, last_error := 0, latency := 0, latency_data := [],
    ma_length := 0 }

instance : Inhabited Status := ⟨Status.default⟩

/-- `Rpc` from `src/rpc/types.rs`.  The Reqwest `client` field is an
external connection handle never read by the selection or latency logic and
is omitted.  The `group` field is modelled from the spec (see
`RouteGroup`): `select.rs` filters on `rpc.group == *route_group`. -/
structure Rpc where
  url : String
  ws_url : Option String
  status : Status
  max_consecutive : Nat
  consecutive : Nat
  last_used : Nat
  min_time_delta : Nat
  group : RouteGroup
deriving DecidableEq, Repr

/-- `impl Default for Rpc` from `src/rpc/types.rs`. -/
def Rpc.default : Rpc :=
  { url := "", ws_url := none, status := Status.default,
    max_consecutive := 0, consecutive := 0, last_used := 0,
    min_time_delta := 0, group := 0 }

instance : Inhabited Rpc := ⟨Rpc.default⟩

/-- The Rust cast `f64 as u64` (and `f64 as usize`, with 64-bit `usize`):
truncation toward zero, saturating at `0` and `u64::MAX`.  On rationals
this equals `⌊q⌋` clamped into `[0, 2^64 - 1]`. -/
def f64AsU64 (q : ℚ) : Nat := min q.floor.toNat (2 ^ 64 - 1)

/-- `Rpc::update_latency` from `src/rpc/types.rs`.  The source first calls
`latency_data.remove(0)` when `len >= ma_length as usize`
(`Vec::remove` panics on an empty vector: `none`), then pushes the new
sample and recomputes `latency` as the mean of the updated history. -/
def Rpc.update_latency (self : Rpc) (latest : ℚ) : Option Rpc :=
  if self.status.latency_data.length ≥ f64AsU64 self.status.ma_length then
    match self.status.latency_data with
    | [] => none
    | _ :: rest =>
      let d := rest ++ [latest]
      some { self with
              status := { self.status with
                            latency_data := d,
                            latency := d.sum / (d.length : ℚ) } }
  else
    let d := self.status.latency_data ++ [latest]
    some { self with
            status := { self.status with
                          latency_data := d,
                          latency := d.sum / (d.length : ℚ) } }

/-- Feeding a sequence of latency samples one by one through
`Rpc::update_latency`. -/
def feed (r : Rpc) (xs : List ℚ) : Option Rpc :=
  xs.foldlM Rpc.update_latency r

/-- `RpcIndexed` from `select.rs`: an eligible `Rpc` plus its index in the
original list.  The source holds a `&mut` reference; the model holds the
value and writes mutations back explicitly. -/
structure RpcIndexed where
  rpc : Rpc
  idx : Nat
deriving DecidableEq, Repr

instance : Inhabited RpcIndexed := ⟨⟨Rpc.default, 0⟩⟩

/-- The ranking key of entry `i` of `data`:
`data[i].inner().status.latency as u64` from `argsort`. -/
def keyAt (data : List RpcIndexed) (i : Nat) : Nat :=
  f64AsU64 (data.getD i default).rpc.status.latency

/-- `argsort` from `select.rs`: the indices `0..data.len()` sorted by the
entry's latency cast to `u64`.  The source's `sort_unstable_by_key` leaves
the relative order of equal keys unspecified; an executable model must fix
one, and insertion sort (what Rust actually runs on small slices) is used.
Ranking properties proved below are invariant under the tie order, except
where a concrete small input pins the real behaviour down. -/
def argsort (data : List RpcIndexed) : List Nat :=
  List.insertionSort (fun i j => keyAt data i ≤ keyAt data j)
    (List.range data.length)

/-- Checked `u128` subtraction: `none` models the panic of overflow-checked
Rust arithmetic on underflow. -/
def checkedSub (a b : Nat) : Option Nat :=
  if b ≤ a then some (a - b) else none

/-- Replace entry `i` of `l` by `f` of it (identity when `i` is out of
range; all call sites below use in-range indices). -/
def modifyIdx (l : List RpcIndexed) (i : Nat) (f : RpcIndexed → RpcIndexed) :
    List RpcIndexed :=
  match l[i]? with
  | none => l
  | some e => l.set i (f e)

/-- Set the `consecutive` counter of an entry to `0` (the universal reset
performed on every visited entry of the walk). -/
def zeroConsecutive (e : RpcIndexed) : RpcIndexed :=
  { e with rpc := { e.rpc with consecutive := 0 } }

/-- The candidate walk of the default `algo` (`select.rs` lines 85-95),
processing the index order it is given (the source iterates
`indices.iter().rev()`).  `st` is `(choice, choice_consecutive)`.  The Rust
`&&` short-circuits, so the `u128` subtraction `time - last_used` is
evaluated only when `consecutive < max_consecutive`; its underflow panic is
modelled by `none`.  Every visited entry's `consecutive` is reset to 0. -/
def walk (time : Nat) :
    List RpcIndexed → Nat × Nat → List Nat →
      Option (List RpcIndexed × Nat × Nat)
  | l, st, [] => some (l, st)
  | l, st, i :: rest =>
    let e := l.getD i default
    if e.rpc.consecutive < e.rpc.max_consecutive then
      match checkedSub time e.rpc.last_used with
      | none => none
      | some dt =>
        let st' := if e.rpc.min_time_delta < dt then (i, e.rpc.consecutive)
          else st
        walk time (modifyIdx l i zeroConsecutive) st' rest
    else
      walk time (modifyIdx l i zeroConsecutive) st rest

/-- The default selection algorithm `algo` from `select.rs` (feature
`selection-weighed-round-robin`): sort by latency, walk the ranking from
worst to best updating the candidate, then bump the chosen entry's
`consecutive` and stamp its `last_used`.  `time` is the microsecond
timestamp read from the system clock at the start of the call; `none`
models a panic (`indices[0]` on an empty list, or timestamp underflow). -/
def algo (list : List RpcIndexed) (time : Nat) :
    Option (List RpcIndexed × Nat) :=
  let indices := argsort list
  match indices with
  | [] => none
  | i0 :: _ =>
    match walk time list (i0, 0) indices.reverse with
    | none => none
    | some (l, choice, cc) =>
      some (modifyIdx l choice
              (fun x => { x with rpc := { x.rpc with consecutive := cc + 1,
                                                     last_used := time } }),
            choice)

/-- The eligibility filter of `pick`
(`iter_mut().enumerate().filter_map(..)`): the entries whose `group` equals
the requested route group, each paired with its index in the original list;
`n` is the original index of the head of `l`. -/
def filterIndexed (route_group : RouteGroup) : List Rpc → Nat → List RpcIndexed
  | [], _ => []
  | r :: rest, n =>
    if r.group = route_group then
      ⟨r, n⟩ :: filterIndexed route_group rest (n + 1)
    else
      filterIndexed route_group rest (n + 1)

/-- Write the mutated filtered entries back to their positions in the
original list: the model of the in-place mutation that happens through the
aliasing `&mut` references held by the `RpcIndexed` entries. -/
def writeBack (l : List Rpc) (fl : List RpcIndexed) : List Rpc :=
  fl.foldl (fun acc e => acc.set e.idx e.rpc) l

/-- `pick` from `select.rs`: filter by route group; with exactly one
eligible entry return `(list[0].clone(), Some(0))`; with none return
`(Rpc::default(), None)`; otherwise run `algo` on the filtered list and
return a clone of the picked entry together with its original index.  The
result is the updated pool paired with the source's return value
`(Rpc, Option<usize>)`; the outer `Option` models a panic inside the
call. -/
def pick (list : List Rpc) (route_group : RouteGroup) (time : Nat) :
    Option (List Rpc × Rpc × Option Nat) :=
  let filtered_list := filterIndexed route_group list 0
  if filtered_list.length = 1 then
    match list[0]? with
    | none => none
    | some r => some (list, r, some 0)
  else if filtered_list.length = 0 then
    some (list, Rpc.default, none)
  else
    match algo filtered_list time with
    | none => none
    | some (fl, picked_idx) =>
      match fl[picked_idx]? with
      | none => none
      | some picked => some (writeBack list fl, picked.rpc, some picked.idx)

/-- Spec §4.1 step 4: the backend is within its consecutive-use budget and
past its throttle gate at timestamp `time` (`Nat` subtraction truncates at
zero; on every successful execution path the checked `u128` subtraction
agrees with it, see `walk_some`). -/
def satisfiesRpc (r : Rpc) (time : Nat) : Prop :=
  r.consecutive < r.max_consecutive ∧ r.min_time_delta < time - r.last_used

instance (r : Rpc) (time : Nat) : Decidable (satisfiesRpc r time) := by
  unfold satisfiesRpc; infer_instance

/-- Entry `i` of `data` satisfies the fairness and throttle conditions. -/
def satisfies (data : List RpcIndexed) (time : Nat) (i : Nat) : Prop :=
  satisfiesRpc (data.getD i default).rpc time

instance (data : List RpcIndexed) (time : Nat) (i : Nat) :
    Decidable (satisfies data time i) := by
  unfold satisfies; infer_instance

/-- The pure candidate fold the walk implements over the original entries:
the last index in walk order that satisfies the conditions wins (together
with its pre-reset `consecutive` value). -/
def chooseFold (orig : List RpcIndexed) (time : Nat) (st : Nat × Nat)
    (rs : List Nat) : Nat × Nat :=
  rs.foldl
    (fun st i =>
      if satisfies orig time i then (i, (orig.getD i default).rpc.consecutive)
      else st)
    st

/-- The first index in ranking order that satisfies the fairness and
throttle conditions — the index the walk's last overwrite leaves in
`choice` (the walk visits the ranking in reverse, so the last satisfying
overwrite is the first satisfier in ranking order). -/
def chosen (data : List RpcIndexed) (time : Nat) : Option Nat :=
  (argsort data).find? (fun i => decide (satisfies data time i))

/-- The `choice_consecutive` value the walk ends with: the pre-reset
`consecutive` of the chosen entry, or `0` when no entry satisfies the
conditions. -/
def chosenCC (data : List RpcIndexed) (time : Nat) : Nat :=
  match chosen data time with
  | some i => (data.getD i default).rpc.consecutive
  | none => 0

/-- The index `algo` returns: the first satisfier in ranking order, or the
fastest entry (`indices[0]`) when nothing satisfies the conditions. -/
def choiceIdx (data : List RpcIndexed) (time : Nat) : Nat :=
  match chosen data time with
  | some i => i
  | none => (argsort data).headD 0

instance (data : List RpcIndexed) :
    IsTrans Nat (fun i j => keyAt data i ≤ keyAt data j) :=
  ⟨fun _ _ _ h1 h2 => le_trans h1 h2⟩

instance (data : List RpcIndexed) :
    IsTotal Nat (fun i j => keyAt data i ≤ keyAt data j) :=
  ⟨fun _ _ => Nat.le_total _ _⟩

/-! ## Concrete inputs used by witnesses and counterexamples -/

/-- A `Status` holding only a latency value, as built by the source's
tests (`rpcN.status.latency = ...` on a default `Rpc`). -/
def mkStatus (lat : ℚ) : Status :=
  { is_erroring := false, last_error := 0, latency := lat,
    latency_data := [], ma_length := 0 }

/-- An `Rpc` with the given latency, `max_consecutive`, `consecutive`,
`min_time_delta`, `last_used` and route group, everything else default. -/
def mkRpc (lat : ℚ) (maxc consec mtd lu : Nat) (g : RouteGroup) : Rpc :=
  { url := "", ws_url := none, status := mkStatus lat,
    max_consecutive := maxc, consecutive := consec, last_used := lu,
    min_time_delta := mtd, group := g }

/-- `1.7` as an exact rational in lowest terms (constructed directly so
that kernel evaluation never has to normalise a fraction). -/
def q17d10 : ℚ := ⟨17, 10, by norm_num, by norm_num⟩

/-- `1.2` as an exact rational in lowest terms. -/
def q6d5 : ℚ := ⟨6, 5, by norm_num, by norm_num⟩

/-- A backend in route group 0. -/
def c1A : Rpc := mkRpc 3 10 0 0 0 0

/-- A backend in route group 1: the only backend of `c1List` eligible for
route group 1. -/
def c1B : Rpc := mkRpc 5 10 0 0 0 1

/-- A pool in which exactly one backend (`c1B`, at index 1) belongs to
route group 1. -/
def c1List : List Rpc := [c1A, c1B]

/-- Two eligible entries whose latencies `1.7` and `1.2` are distinct but
collide after the `as u64` cast (both keys are `1`); both entries satisfy
the fairness and throttle conditions at time 1. -/
def cex2 : List RpcIndexed :=
  [⟨mkRpc q17d10 1 0 0 0 0, 0⟩, ⟨mkRpc q6d5 1 0 0 0 0, 1⟩]

/-- Two eligible entries that both satisfy the conditions at time 1. -/
def wl : List RpcIndexed := [⟨mkRpc 1 1 0 0 0 0, 0⟩, ⟨mkRpc 2 1 0 0 0 0, 1⟩]

/-- The state of `wl` after `algo wl 1`: entry 0 is chosen. -/
def wlAfter : List RpcIndexed :=
  [⟨mkRpc 1 1 1 0 1 0, 0⟩, ⟨mkRpc 2 1 0 0 0 0, 1⟩]

/-- Two eligible backends with `consecutive = 5` whose throttle gates are
closed at time 40 (`40 - 0 > 50` fails): the fallback branch of the walk. -/
def fbList : List Rpc := [mkRpc 1 10 5 50 0 0, mkRpc 2 10 5 50 0 0]

/-- Two eligible backends, both satisfying the conditions at time 1, with
pre-call `consecutive` 2 and 3. -/
def w3List : List Rpc := [mkRpc 1 5 2 0 0 0, mkRpc 2 5 3 0 0 0]

/-- The pool state after `pick w3List 0 1`: index 0 chosen,
`consecutive` bumped from 2 to 3 and `last_used` stamped. -/
def w3After : List Rpc := [mkRpc 1 5 3 0 1 0, mkRpc 2 5 0 0 0 0]

/-- A `Status` with `ma_length = 2` and empty history. -/
def maStatus : Status :=
  { is_erroring := false, last_error := 0, latency := 0,
    latency_data := [], ma_length := 2 }

/-- An `Rpc` with moving-average window 2 and empty history. -/
def maRpc : Rpc := { Rpc.default with status := maStatus }

/-- An `Rpc` with window 2 whose history is full (`[1, 3]`). -/
def maRpc2 : Rpc :=
  { Rpc.default with status :=
      { maStatus with latency := 2, latency_data := [1, 3] } }

/-! ## Lemmas about `modifyIdx` -/

theorem length_modifyIdx (l : List RpcIndexed) (i : Nat)
    (f : RpcIndexed → RpcIndexed) : (modifyIdx l i f).length = l.length := by
  unfold modifyIdx
  cases h : l[i]? with
  | none => rfl
  | some e => simp

theorem getD_modifyIdx_ne (l : List RpcIndexed) {i j : Nat}
    (f : RpcIndexed → RpcIndexed) (h : j ≠ i) :
    (modifyIdx l i f).getD j default = l.getD j default := by
  unfold modifyIdx
  cases hx : l[i]? with
  | none => rfl
  | some e =>
    simp [List.getD_eq_getElem?_getD, List.getElem?_set_ne (Ne.symm h)]

theorem getD_modifyIdx_self (l : List RpcIndexed) {i : Nat}
    (f : RpcIndexed → RpcIndexed) (h : i < l.length) :
    (modifyIdx l i f).getD i default = f (l.getD i default) := by
  unfold modifyIdx
  cases hx : l[i]? with
  | none => rw [List.getElem?_eq_getElem h] at hx; cases hx
  | some e =>
    rw [List.getElem?_eq_getElem h] at hx
    injection hx with hx
    simp [List.getD_eq_getElem?_getD, List.getElem?_set, h,
      List.getElem?_eq_getElem h, hx]

/-! ## Lemmas about `filterIndexed` -/

theorem of_mem_filterIndexed {g : RouteGroup} :
    ∀ {l : List Rpc} {n : Nat} {e : RpcIndexed}, e ∈ filterIndexed g l n →
      ∃ j, j < l.length ∧ e.idx = n + j ∧
        l.getD j Rpc.default = e.rpc ∧ e.rpc.group = g
  | [], _, _, h => by cases h
  | r :: rest, n, e, h => by
    by_cases hg : r.group = g
    · rw [filterIndexed, if_pos hg] at h
      rcases List.mem_cons.mp h with h | h
      · exact ⟨0, by simp, by simp [h], by simp [h], by simp [h, hg]⟩
      · obtain ⟨j, hj, hidx, hget, hgr⟩ := of_mem_filterIndexed h
        exact ⟨j + 1, by simpa using hj, by omega, by simpa using hget, hgr⟩
    · rw [filterIndexed, if_neg hg] at h
      obtain ⟨j, hj, hidx, hget, hgr⟩ := of_mem_filterIndexed h
      exact ⟨j + 1, by simpa using hj, by omega, by simpa using hget, hgr⟩

theorem mem_filterIndexed_of_eligible {g : RouteGroup} :
    ∀ {l : List Rpc} (n : Nat) {j : Nat}, j < l.length →
      (l.getD j Rpc.default).group = g →
      (⟨l.getD j Rpc.default, n + j⟩ : RpcIndexed) ∈ filterIndexed g l n
  | [], _, _, hj, _ => by cases hj
  | r :: rest, n, j, hj, hg => by
    cases j with
    | zero =>
      simp only [List.getD_cons_zero] at hg ⊢
      rw [filterIndexed, if_pos hg]
      exact List.mem_cons_self _ _
    | succ j =>
      simp only [List.getD_cons_succ] at hg ⊢
      have hj' : j < rest.length := by simpa using hj
      have := mem_filterIndexed_of_eligible (g := g) (n + 1) hj' hg
      by_cases hgr : r.group = g
      · rw [filterIndexed, if_pos hgr]
        exact List.mem_cons_of_mem _ (by simpa [Nat.add_assoc, Nat.add_comm 1 j] using this)
      · rw [filterIndexed, if_neg hgr]
        simpa [Nat.add_assoc, Nat.add_comm 1 j] using this

theorem le_idx_of_mem_filterIndexed {g : RouteGroup} {l : List Rpc} {n : Nat}
    {e : RpcIndexed} (h : e ∈ filterIndexed g l n) : n ≤ e.idx := by
  obtain ⟨j, _, hidx, _, _⟩ := of_mem_filterIndexed h
  omega

theorem pairwise_idx_filterIndexed {g : RouteGroup} :
    ∀ (l : List Rpc) (n : Nat),
      (filterIndexed g l n).Pairwise (fun a b => a.idx < b.idx)
  | [], _ => List.Pairwise.nil
  | r :: rest, n => by
    by_cases hg : r.group = g
    · rw [filterIndexed, if_pos hg]
      refine List.Pairwise.cons (fun b hb => ?_) (pairwise_idx_filterIndexed rest (n + 1))
      have := le_idx_of_mem_filterIndexed hb
      simpa using Nat.lt_of_lt_of_le (Nat.lt_succ_self n) this
    · rw [filterIndexed, if_neg hg]
      exact pairwise_idx_filterIndexed rest (n + 1)

theorem filterIndexed_eq_nil_iff {g : RouteGroup} :
    ∀ {l : List Rpc} {n : Nat},
      filterIndexed g l n = [] ↔ ∀ x ∈ l, x.group ≠ g
  | [], _ => by simp [filterIndexed]
  | r :: rest, n => by
    by_cases hg : r.group = g
    · rw [filterIndexed, if_pos hg]
      simp [hg]
    · rw [filterIndexed, if_neg hg]
      rw [filterIndexed_eq_nil_iff]
      constructor
      · intro h x hx
        rcases List.mem_cons.mp hx with rfl | hx
        · exact hg
        · exact h x hx
      · intro h x hx
        exact h x (List.mem_cons_of_mem _ hx)

/-! ## Lemmas about `writeBack` -/

theorem writeBack_length : ∀ (fl : List RpcIndexed) (l : List Rpc),
    (writeBack l fl).length = l.length
  | [], _ => rfl
  | e :: fl, l => by
    rw [writeBack, List.foldl_cons, ← writeBack]
    rw [writeBack_length fl]
    simp

theorem getD_writeBack_not_mem :
    ∀ (fl : List RpcIndexed) (l : List Rpc) {j : Nat},
      (∀ e ∈ fl, j ≠ e.idx) →
      (writeBack l fl).getD j Rpc.default = l.getD j Rpc.default
  | [], _, _, _ => rfl
  | e :: fl, l, j, h => by
    rw [writeBack, List.foldl_cons, ← writeBack]
    rw [getD_writeBack_not_mem fl _ (fun x hx => h x (List.mem_cons_of_mem _ hx))]
    simp [List.getD_eq_getElem?_getD,
      List.getElem?_set_ne (Ne.symm (h e (List.mem_cons_self _ _)))]

theorem getD_writeBack_mem :
    ∀ (fl : List RpcIndexed) (l : List Rpc) {e : RpcIndexed},
      fl.Pairwise (fun a b => a.idx < b.idx) → e ∈ fl → e.idx < l.length →
      (writeBack l fl).getD e.idx Rpc.default = e.rpc
  | [], _, _, _, h, _ => by cases h
  | x :: fl, l, e, hp, he, hlen => by
    rw [writeBack, List.foldl_cons, ← writeBack]
    rcases List.mem_cons.mp he with rfl | he'
    · rw [getD_writeBack_not_mem fl _
        (fun y hy => Nat.ne_of_lt ((List.pairwise_cons.mp hp).1 y hy))]
      simp [List.getD_eq_getElem?_getD, List.getElem?_set, hlen]
    · exact getD_writeBack_mem fl _ (List.pairwise_cons.mp hp).2 he'
        (by simpa using hlen)

/-! ## Lemmas about `argsort` -/

theorem argsort_perm (data : List RpcIndexed) :
    (argsort data).Perm (List.range data.length) :=
  List.perm_insertionSort _ _

theorem argsort_sorted (data : List RpcIndexed) :
    (argsort data).Sorted (fun i j => keyAt data i ≤ keyAt data j) :=
  List.sorted_insertionSort _ _

theorem mem_argsort {data : List RpcIndexed} {i : Nat} :
    i ∈ argsort data ↔ i < data.length := by
  rw [(argsort_perm data).mem_iff, List.mem_range]

theorem argsort_nodup (data : List RpcIndexed) : (argsort data).Nodup :=
  (argsort_perm data).nodup_iff.mpr (List.nodup_range _)

theorem argsort_length (data : List RpcIndexed) :
    (argsort data).length = data.length := by
  simpa using (argsort_perm data).length_eq

theorem argsort_head_min {data : List RpcIndexed} {i0 : Nat} {rest : List Nat}
    (h : argsort data = i0 :: rest) :
    ∀ j < data.length, keyAt data i0 ≤ keyAt data j := by
  intro j hj
  have hmem : j ∈ argsort data := mem_argsort.mpr hj
  rw [h] at hmem
  rcases List.mem_cons.mp hmem with rfl | hmem
  · exact le_refl _
  · exact List.rel_of_sorted_cons (h ▸ argsort_sorted data) j hmem

/-- In a list sorted by key, the first element found satisfying `p` has the
minimal key among all elements satisfying `p`. -/
theorem find?_sorted_key_min (key : Nat → Nat) (p : Nat → Bool) :
    ∀ (s : List Nat), s.Sorted (fun i j => key i ≤ key j) →
      ∀ {i : Nat}, s.find? p = some i → ∀ j ∈ s, p j → key i ≤ key j
  | [], _, i, h => by cases h
  | a :: s, hs, i, hf => by
    intro j hj hpj
    by_cases hpa : p a = true
    · rw [List.find?_cons_of_pos _ hpa] at hf
      injection hf with hf
      subst hf
      rcases List.mem_cons.mp hj with rfl | hj
      · exact le_refl _
      · exact List.rel_of_sorted_cons hs j hj
    · rw [List.find?_cons_of_neg _ hpa] at hf
      rcases List.mem_cons.mp hj with rfl | hj
      · exact absurd hpj hpa
      · exact find?_sorted_key_min key p s hs.of_cons hf j hj hpj

/-! ## Lemmas about `chooseFold` and `walk` -/

theorem chooseFold_congr {l₁ l₂ : List RpcIndexed} {t : Nat} {rs : List Nat} :
    ∀ (st : Nat × Nat),
      (∀ i ∈ rs, l₁.getD i default = l₂.getD i default) →
      chooseFold l₁ t st rs = chooseFold l₂ t st rs := by
  induction rs with
  | nil => intro st _; rfl
  | cons i rest ih =>
    intro st h
    have hi := h i (List.mem_cons_self _ _)
    have hstep :
        (if satisfies l₁ t i then (i, (l₁.getD i default).rpc.consecutive)
          else st) =
        (if satisfies l₂ t i then (i, (l₂.getD i default).rpc.consecutive)
          else st) := by
      unfold satisfies
      simp only [hi]
    show chooseFold l₁ t st (i :: rest) = chooseFold l₂ t st (i :: rest)
    simp only [chooseFold, List.foldl_cons]
    rw [hstep]
    exact ih _ (fun j hj => h j (List.mem_cons_of_mem _ hj))

theorem chooseFold_reverse (orig : List RpcIndexed) (t : Nat) :
    ∀ (inds : List Nat) (st : Nat × Nat),
      chooseFold orig t st inds.reverse =
        match inds.find? (fun i => decide (satisfies orig t i)) with
        | some i => (i, (orig.getD i default).rpc.consecutive)
        | none => st
  | [], st => rfl
  | i :: rest, st => by
    rw [List.reverse_cons]
    show chooseFold orig t st (rest.reverse ++ [i]) = _
    simp only [chooseFold, List.foldl_append, List.foldl_cons, List.foldl_nil]
    rw [show List.foldl
        (fun st i => if satisfies orig t i
          then (i, (orig.getD i default).rpc.consecutive) else st)
        st rest.reverse = chooseFold orig t st rest.reverse from rfl]
    rw [chooseFold_reverse orig t rest st]
    by_cases hp : satisfies orig t i
    · rw [List.find?_cons_of_pos _ (by simpa using hp)]
      cases hfind : rest.find? (fun i => decide (satisfies orig t i)) <;>
        simp [hp]
    · rw [List.find?_cons_of_neg _ (by simpa using hp)]
      cases hfind : rest.find? (fun i => decide (satisfies orig t i)) <;>
        simp [hp, hfind]

theorem getD_modifyIdx_zero_cases (l : List RpcIndexed) (i j : Nat) :
    (modifyIdx l i zeroConsecutive).getD j default = l.getD j default ∨
    (modifyIdx l i zeroConsecutive).getD j default =
      zeroConsecutive (l.getD j default) := by
  by_cases hji : j = i
  · subst hji
    by_cases hl : j < l.length
    · exact Or.inr (getD_modifyIdx_self _ _ hl)
    · left
      simp [modifyIdx, List.getElem?_eq_none (Nat.le_of_not_lt hl)]
  · exact Or.inl (getD_modifyIdx_ne _ _ hji)

theorem walk_isSome {t : Nat} {rs : List Nat} :
    ∀ {l : List RpcIndexed} {st : Nat × Nat},
      (∀ i ∈ rs, (l.getD i default).rpc.last_used ≤ t) →
      (walk t l st rs).isSome := by
  induction rs with
  | nil => intro l st _; simp [walk]
  | cons i rest ih =>
    intro l st h
    have hrest : ∀ j ∈ rest,
        (((modifyIdx l i zeroConsecutive).getD j default).rpc.last_used ≤ t) := by
      intro j hj
      rcases getD_modifyIdx_zero_cases l i j with hz | hz <;> rw [hz]
      · exact h j (List.mem_cons_of_mem _ hj)
      · exact h j (List.mem_cons_of_mem _ hj)
    simp only [walk]
    by_cases hc : (l.getD i default).rpc.consecutive <
        (l.getD i default).rpc.max_consecutive
    · rw [if_pos hc]
      have hlu := h i (List.mem_cons_self _ _)
      simp only [checkedSub, if_pos hlu]
      exact ih hrest
    · rw [if_neg hc]
      exact ih hrest

theorem walk_some {t : Nat} {orig : List RpcIndexed} {rs : List Nat} :
    ∀ {l : List RpcIndexed} {st : Nat × Nat} {lw : List RpcIndexed}
      {stw : Nat × Nat},
      rs.Nodup → (∀ i ∈ rs, i < l.length) →
      (∀ i ∈ rs, l.getD i default = orig.getD i default) →
      walk t l st rs = some (lw, stw) →
      stw = chooseFold orig t st rs ∧ lw.length = l.length ∧
      (∀ j, j ∉ rs → lw.getD j default = l.getD j default) ∧
      (∀ j ∈ rs, lw.getD j default = zeroConsecutive (l.getD j default)) := by
  induction rs with
  | nil =>
    intro l st lw stw _ _ _ hw
    simp only [walk, Option.some.injEq] at hw
    obtain ⟨rfl, rfl⟩ := Prod.mk.injEq .. ▸ hw
    exact ⟨rfl, rfl, fun j _ => rfl, fun j hj => absurd hj (List.not_mem_nil _)⟩
  | cons i rest ih =>
    intro l st lw stw hnd hbd hag hw
    obtain ⟨hndi, hndr⟩ := List.nodup_cons.mp hnd
    have hil : i < l.length := hbd i (List.mem_cons_self _ _)
    have hoi : l.getD i default = orig.getD i default :=
      hag i (List.mem_cons_self _ _)
    have hbd' : ∀ j ∈ rest, j < (modifyIdx l i zeroConsecutive).length := by
      intro j hj
      rw [length_modifyIdx]
      exact hbd j (List.mem_cons_of_mem _ hj)
    have hag' : ∀ j ∈ rest,
        (modifyIdx l i zeroConsecutive).getD j default = orig.getD j default := by
      intro j hj
      rw [getD_modifyIdx_ne _ _ (fun h => hndi (by rw [← h]; exact hj))]
      exact hag j (List.mem_cons_of_mem _ hj)
    have hfin : ∀ (st₁ : Nat × Nat),
        walk t (modifyIdx l i zeroConsecutive) st₁ rest = some (lw, stw) →
        stw = chooseFold orig t st₁ rest ∧ lw.length = l.length ∧
        (∀ j, j ∉ (i :: rest) → lw.getD j default = l.getD j default) ∧
        (∀ j ∈ (i :: rest),
          lw.getD j default = zeroConsecutive (l.getD j default)) := by
      intro st₁ hw'
      obtain ⟨h1, h2, h3, h4⟩ := ih hndr hbd' hag' hw'
      refine ⟨h1, by rw [h2, length_modifyIdx], ?_, ?_⟩
      · intro j hj
        have hji : j ≠ i := fun h => hj (h ▸ List.mem_cons_self _ _)
        have hjr : j ∉ rest := fun h => hj (List.mem_cons_of_mem _ h)
        rw [h3 j hjr, getD_modifyIdx_ne _ _ hji]
      · intro j hj
        rcases List.mem_cons.mp hj with rfl | hjr
        · rw [h3 j hndi, getD_modifyIdx_self _ _ hil]
        · rw [h4 j hjr, getD_modifyIdx_ne _ _ (fun h => hndi (by rw [← h]; exact hjr))]
    simp only [walk] at hw
    by_cases hc : (l.getD i default).rpc.consecutive <
        (l.getD i default).rpc.max_consecutive
    · rw [if_pos hc] at hw
      by_cases hlu : (l.getD i default).rpc.last_used ≤ t
      · simp only [checkedSub, if_pos hlu] at hw
        obtain ⟨h1, h2, h3, h4⟩ := hfin _ hw
        refine ⟨?_, h2, h3, h4⟩
        rw [h1]
        show _ = chooseFold orig t st (i :: rest)
        simp only [chooseFold, List.foldl_cons]
        congr 1
        unfold satisfies satisfiesRpc
        simp only [← hoi]
        rw [List.getD_eq_getElem?_getD] at hc
        simp [hc]
      · simp only [checkedSub, if_neg hlu] at hw
        exact Option.noConfusion hw
    · rw [if_neg hc] at hw
      obtain ⟨h1, h2, h3, h4⟩ := hfin _ hw
      refine ⟨?_, h2, h3, h4⟩
      rw [h1]
      show _ = chooseFold orig t st (i :: rest)
      simp only [chooseFold, List.foldl_cons]
      congr 1
      unfold satisfies satisfiesRpc
      simp only [← hoi]
      rw [List.getD_eq_getElem?_getD] at hc
      simp [hc]

/-! ## Characterisation of `algo` -/

theorem getD_mem {l : List RpcIndexed} {i : Nat} (h : i < l.length) :
    l.getD i default ∈ l := by
  rw [List.getD_eq_getElem?_getD, List.getElem?_eq_getElem h]
  exact List.getElem_mem h

theorem choiceIdx_lt_length {data : List RpcIndexed} {t : Nat}
    (hne : data ≠ []) : choiceIdx data t < data.length := by
  unfold choiceIdx
  cases hfind : chosen data t with
  | some i =>
    have : i ∈ argsort data := List.mem_of_find?_eq_some hfind
    exact mem_argsort.mp this
  | none =>
    have hlen : (argsort data).length = data.length := argsort_length data
    cases hsort : argsort data with
    | nil =>
      exfalso
      rw [hsort] at hlen
      exact hne (List.length_eq_zero.mp hlen.symm)
    | cons i0 rest =>
      simp only [hsort, List.headD_cons]
      exact mem_argsort.mp (hsort ▸ List.mem_cons_self i0 rest)

theorem algo_spec {data : List RpcIndexed} {t : Nat} {data' : List RpcIndexed}
    {c : Nat} (h : algo data t = some (data', c)) :
    c = choiceIdx data t ∧ c < data.length ∧ data'.length = data.length ∧
    (∀ j, j < data.length → j ≠ c →
      data'.getD j default = zeroConsecutive (data.getD j default)) ∧
    data'.getD c default =
      { data.getD c default with rpc :=
          { (data.getD c default).rpc with
              consecutive := chosenCC data t + 1, last_used := t } } := by
  unfold algo at h
  cases hsort : argsort data with
  | nil => rw [hsort] at h; exact Option.noConfusion h
  | cons i0 rest =>
    rw [hsort] at h
    dsimp only at h
    cases hw : walk t data (i0, 0) (i0 :: rest).reverse with
    | none => rw [hw] at h; exact Option.noConfusion h
    | some res =>
      obtain ⟨lw, cw, ccw⟩ := res
      rw [hw] at h
      simp only [Option.some.injEq, Prod.mk.injEq] at h
      obtain ⟨hdata', hc⟩ := h
      subst hdata'
      subst hc
      have hnd : (i0 :: rest).reverse.Nodup :=
        List.nodup_reverse.mpr (hsort ▸ argsort_nodup data)
      have hbd : ∀ i ∈ (i0 :: rest).reverse, i < data.length := by
        intro i hi
        exact mem_argsort.mp (hsort ▸ List.mem_reverse.mp hi)
      obtain ⟨hst, hlen, _, hzero⟩ :=
        walk_some hnd hbd (fun i _ => rfl) hw
      rw [chooseFold_reverse data t (i0 :: rest) (i0, 0)] at hst
      have hchosen : chosen data t =
          (i0 :: rest).find? (fun i => decide (satisfies data t i)) := by
        unfold chosen
        rw [hsort]
      have hcw : cw = choiceIdx data t ∧ ccw = chosenCC data t := by
        unfold choiceIdx chosenCC
        rw [hchosen]
        cases hfind : (i0 :: rest).find? (fun i => decide (satisfies data t i)) with
        | some i =>
          rw [hfind] at hst
          simp only [Prod.mk.injEq] at hst
          exact ⟨hst.1, hst.2⟩
        | none =>
          rw [hfind] at hst
          simp only [Prod.mk.injEq] at hst
          rw [hsort]
          exact ⟨hst.1, hst.2⟩
      have hcl : cw < data.length := by
        rw [hcw.1]
        exact choiceIdx_lt_length (by
          intro hnil
          rw [hnil] at hsort
          simp [argsort] at hsort)
      refine ⟨hcw.1, hcl, ?_, ?_, ?_⟩
      · rw [length_modifyIdx, hlen]
      · intro j hj hjc
        rw [getD_modifyIdx_ne _ _ hjc]
        refine hzero j ?_
        rw [List.mem_reverse, ← hsort]
        exact mem_argsort.mpr hj
      · rw [getD_modifyIdx_self _ _ (by rw [hlen]; exact hcl)]
        rw [hzero cw (by rw [List.mem_reverse, ← hsort]; exact mem_argsort.mpr hcl)]
        rw [← hcw.2]
        rfl

theorem algo_isSome {data : List RpcIndexed} {t : Nat} (hne : data ≠ [])
    (hlu : ∀ e ∈ data, e.rpc.last_used ≤ t) : (algo data t).isSome := by
  unfold algo
  cases hsort : argsort data with
  | nil =>
    exfalso
    have hlen : (argsort data).length = data.length := argsort_length data
    rw [hsort] at hlen
    exact hne (List.length_eq_zero.mp hlen.symm)
  | cons i0 rest =>
    dsimp only
    have hw : (walk t data (i0, 0) (i0 :: rest).reverse).isSome := by
      apply walk_isSome
      intro i hi
      have hil : i < data.length :=
        mem_argsort.mp (hsort ▸ List.mem_reverse.mp hi)
      exact hlu _ (getD_mem hil)
    obtain ⟨res, hres⟩ := Option.isSome_iff_exists.mp hw
    obtain ⟨lw, cw, ccw⟩ := res
    rw [hres]
    rfl

/-! ## Dissection of `pick` -/

theorem getDI_eq_getElem (l : List RpcIndexed) {i : Nat} (h : i < l.length) :
    l.getD i default = l[i] := by
  rw [List.getD_eq_getElem?_getD, List.getElem?_eq_getElem h]
  rfl

theorem getDR_eq_getElem (l : List Rpc) {i : Nat} (h : i < l.length) :
    l.getD i Rpc.default = l[i] := by
  rw [List.getD_eq_getElem?_getD, List.getElem?_eq_getElem h]
  rfl

theorem pick_algo_cases {l : List Rpc} {g : RouteGroup} {t : Nat}
    {l' : List Rpc} {r : Rpc} {k : Nat}
    (hp : pick l g t = some (l', r, some k)) :
    ((filterIndexed g l 0).length = 1 ∧ k = 0 ∧ l' = l ∧ l[0]? = some r) ∨
    (2 ≤ (filterIndexed g l 0).length ∧
      ∃ fl c, algo (filterIndexed g l 0) t = some (fl, c) ∧
        c < fl.length ∧ fl.getD c default = ⟨r, k⟩ ∧ l' = writeBack l fl) := by
  unfold pick at hp
  dsimp only at hp
  by_cases hlen1 : (filterIndexed g l 0).length = 1
  · rw [if_pos hlen1] at hp
    cases h0 : l[0]? with
    | none => rw [h0] at hp; exact Option.noConfusion hp
    | some r0 =>
      rw [h0] at hp
      simp only [Option.some.injEq, Prod.mk.injEq] at hp
      obtain ⟨h1, h2, h3⟩ := hp
      subst h1
      subst h2
      subst h3
      exact Or.inl ⟨hlen1, rfl, rfl, rfl⟩
  · rw [if_neg hlen1] at hp
    by_cases hlen0 : (filterIndexed g l 0).length = 0
    · rw [if_pos hlen0] at hp
      simp only [Option.some.injEq, Prod.mk.injEq] at hp
      exact Option.noConfusion hp.2.2
    · rw [if_neg hlen0] at hp
      cases halgo : algo (filterIndexed g l 0) t with
      | none => rw [halgo] at hp; exact Option.noConfusion hp
      | some res =>
        obtain ⟨fl, c⟩ := res
        rw [halgo] at hp
        dsimp only at hp
        cases hget : fl[c]? with
        | none => rw [hget] at hp; exact Option.noConfusion hp
        | some picked =>
          rw [hget] at hp
          simp only [Option.some.injEq, Prod.mk.injEq] at hp
          obtain ⟨h1, h2, h3⟩ := hp
          obtain ⟨hcl, hcv⟩ := List.getElem?_eq_some_iff.mp hget
          refine Or.inr ⟨by omega, fl, c, rfl, hcl, ?_, h1.symm⟩
          rw [getDI_eq_getElem fl hcl, hcv]
          cases picked
          simp_all

/-- Detailed description of a `pick` call that went through the default
algorithm (at least two eligible backends): the returned index addresses
the eligible slot that was chosen, its post-state, and the reset of every
other eligible backend. -/
theorem pick_algo_detail {l : List Rpc} {g : RouteGroup} {t : Nat}
    {l' : List Rpc} {r : Rpc} {k : Nat}
    (h2 : 2 ≤ (filterIndexed g l 0).length)
    (hp : pick l g t = some (l', r, some k)) :
    k < l.length ∧ (l.getD k Rpc.default).group = g ∧
    l'.getD k Rpc.default = r ∧
    r = { l.getD k Rpc.default with
            consecutive := chosenCC (filterIndexed g l 0) t + 1,
            last_used := t } ∧
    (∀ j, j < l.length → (l.getD j Rpc.default).group = g → j ≠ k →
      (l'.getD j Rpc.default).consecutive = 0) ∧
    ((∃ j, j < l.length ∧ (l.getD j Rpc.default).group = g ∧
        satisfiesRpc (l.getD j Rpc.default) t) →
      chosenCC (filterIndexed g l 0) t = (l.getD k Rpc.default).consecutive) ∧
    ((∀ j, j < l.length → (l.getD j Rpc.default).group = g →
        ¬ satisfiesRpc (l.getD j Rpc.default) t) →
      chosenCC (filterIndexed g l 0) t = 0) := by
  rcases pick_algo_cases hp with ⟨h1len, _⟩ | ⟨_, fl, c, halgo, hcfl, hflc, hl'⟩
  · omega
  obtain ⟨hcI, hclt, hlenfl, hzero, hupd⟩ := algo_spec halgo
  have hFc_mem : (filterIndexed g l 0).getD c default ∈ filterIndexed g l 0 :=
    getD_mem hclt
  obtain ⟨j0, hj0lt, hj0idx, hj0get, hj0g⟩ := of_mem_filterIndexed hFc_mem
  have hkidx : ((filterIndexed g l 0).getD c default).idx = k :=
    (congrArg RpcIndexed.idx hupd).symm.trans (congrArg RpcIndexed.idx hflc)
  have hkj0 : k = j0 := by omega
  subst hkj0
  have hlk : l.getD k Rpc.default = ((filterIndexed g l 0).getD c default).rpc :=
    hj0get
  have hr : r = { l.getD k Rpc.default with
      consecutive := chosenCC (filterIndexed g l 0) t + 1, last_used := t } := by
    have h1 : (fl.getD c default).rpc = r := congrArg RpcIndexed.rpc hflc
    have h2' : (fl.getD c default).rpc =
        { ((filterIndexed g l 0).getD c default).rpc with
            consecutive := chosenCC (filterIndexed g l 0) t + 1,
            last_used := t } := congrArg RpcIndexed.rpc hupd
    rw [← h1, h2', hlk]
  have hidxeq : ∀ p, p < (filterIndexed g l 0).length →
      (fl.getD p default).idx = ((filterIndexed g l 0).getD p default).idx := by
    intro p hpl
    by_cases hpc : p = c
    · subst hpc
      simpa using congrArg RpcIndexed.idx hupd
    · rw [hzero p hpl hpc]
      rfl
  have hpw : fl.Pairwise (fun a b => a.idx < b.idx) := by
    have hPF := pairwise_idx_filterIndexed (g := g) l 0
    rw [List.pairwise_iff_getElem] at hPF ⊢
    intro a b ha hb hab
    have ha' : a < (filterIndexed g l 0).length := by rw [← hlenfl]; exact ha
    have hb' : b < (filterIndexed g l 0).length := by rw [← hlenfl]; exact hb
    rw [← getDI_eq_getElem fl ha, ← getDI_eq_getElem fl hb,
      hidxeq a ha', hidxeq b hb',
      getDI_eq_getElem _ ha', getDI_eq_getElem _ hb']
    exact hPF a b ha' hb' hab
  have hl'k : l'.getD k Rpc.default = r := by
    rw [hl']
    have hmem : fl.getD c default ∈ fl := getD_mem hcfl
    have hkl : (fl.getD c default).idx < l.length := by
      rw [congrArg RpcIndexed.idx hflc]
      exact hj0lt
    have hwb := getD_writeBack_mem fl l hpw hmem hkl
    rw [congrArg RpcIndexed.idx hflc] at hwb
    rw [hwb]
    exact congrArg RpcIndexed.rpc hflc
  have hposition : ∀ j, j < l.length → (l.getD j Rpc.default).group = g →
      ∃ p, p < (filterIndexed g l 0).length ∧
        (filterIndexed g l 0).getD p default = ⟨l.getD j Rpc.default, j⟩ := by
    intro j hjl hjg
    have hjmem : (⟨l.getD j Rpc.default, j⟩ : RpcIndexed) ∈ filterIndexed g l 0 := by
      simpa using mem_filterIndexed_of_eligible (g := g) 0 hjl hjg
    obtain ⟨p, hpF, hpv⟩ := List.mem_iff_getElem.mp hjmem
    exact ⟨p, hpF, by rw [getDI_eq_getElem _ hpF]; exact hpv⟩
  have hzeroed : ∀ j, j < l.length → (l.getD j Rpc.default).group = g → j ≠ k →
      (l'.getD j Rpc.default).consecutive = 0 := by
    intro j hjl hjg hjk
    obtain ⟨p, hpF, hpD⟩ := hposition j hjl hjg
    have hpc : p ≠ c := by
      intro hpc
      subst hpc
      apply hjk
      rw [hpD] at hkidx
      exact hkidx
    have hflp : fl.getD p default =
        zeroConsecutive ((filterIndexed g l 0).getD p default) := hzero p hpF hpc
    have hidxj : (fl.getD p default).idx = j := by
      rw [hflp, hpD]
      rfl
    have hmem : fl.getD p default ∈ fl :=
      getD_mem (by rw [hlenfl]; exact hpF)
    have hwb := getD_writeBack_mem fl l hpw hmem (by rw [hidxj]; exact hjl)
    rw [hidxj] at hwb
    rw [hl', hwb, hflp, hpD]
    rfl
  have hsat_bridge : ∀ p, p < (filterIndexed g l 0).length →
      ∀ j, (filterIndexed g l 0).getD p default = ⟨l.getD j Rpc.default, j⟩ →
      (satisfies (filterIndexed g l 0) t p ↔ satisfiesRpc (l.getD j Rpc.default) t) := by
    intro p _ j hpD
    unfold satisfies
    rw [hpD]
  have hccsome : (∃ j, j < l.length ∧ (l.getD j Rpc.default).group = g ∧
      satisfiesRpc (l.getD j Rpc.default) t) →
      chosenCC (filterIndexed g l 0) t = (l.getD k Rpc.default).consecutive := by
    rintro ⟨j, hjl, hjg, hjsat⟩
    obtain ⟨p, hpF, hpD⟩ := hposition j hjl hjg
    unfold chosenCC
    cases hch : chosen (filterIndexed g l 0) t with
    | none =>
      exfalso
      have hnone := List.find?_eq_none.mp hch
      have hpmem : p ∈ argsort (filterIndexed g l 0) := mem_argsort.mpr hpF
      have := hnone p hpmem
      simp only [decide_eq_true_eq] at this
      exact this ((hsat_bridge p hpF j hpD).mpr hjsat)
    | some i =>
      have hci : c = i := by
        rw [hcI]
        unfold choiceIdx
        rw [hch]
      rw [hlk, ← hci]
  have hccnone : (∀ j, j < l.length → (l.getD j Rpc.default).group = g →
      ¬ satisfiesRpc (l.getD j Rpc.default) t) →
      chosenCC (filterIndexed g l 0) t = 0 := by
    intro hno
    unfold chosenCC
    cases hch : chosen (filterIndexed g l 0) t with
    | none => rfl
    | some i =>
      exfalso
      have hisat : satisfies (filterIndexed g l 0) t i := by
        have := List.find?_some hch
        simpa using this
      have hil : i < (filterIndexed g l 0).length :=
        mem_argsort.mp (List.mem_of_find?_eq_some hch)
      obtain ⟨j, hjl, hjidx, hjget, hjg⟩ :=
        of_mem_filterIndexed (getD_mem hil)
      refine hno j hjl (by rw [hjget]; exact hjg) ?_
      have : satisfiesRpc ((filterIndexed g l 0).getD i default).rpc t := hisat
      rw [← hjget] at this
      exact this
  exact ⟨hj0lt, hj0g ▸ (hlk ▸ rfl), hl'k, hr, hzeroed, hccsome, hccnone⟩

/-! ## Lemmas about the moving average -/

/-- As long as the window is not yet full, feeding samples just appends
them to the history, and the latency ends up as the mean of the final
history. -/
theorem feed_appends_and_averages :
    ∀ (xs : List ℚ) (r : Rpc),
      r.status.latency_data.length + xs.length ≤ f64AsU64 r.status.ma_length →
      ∃ r', feed r xs = some r' ∧
        r'.status.latency_data = r.status.latency_data ++ xs ∧
        r'.status.ma_length = r.status.ma_length ∧
        (xs ≠ [] → r'.status.latency =
          (r.status.latency_data ++ xs).sum /
            ((r.status.latency_data ++ xs).length : ℚ)) ∧
        (xs = [] → r' = r)
  | [], r, _ =>
    ⟨r, rfl, by simp, rfl, fun h => absurd rfl h, fun _ => rfl⟩
  | x :: xs, r, hle => by
    have hlt : r.status.latency_data.length < f64AsU64 r.status.ma_length := by
      simp only [List.length_cons] at hle
      omega
    have hnotge :
        ¬ (r.status.latency_data.length ≥ f64AsU64 r.status.ma_length) := by
      omega
    have hu : r.update_latency x = some
        { r with status := { r.status with
            latency_data := r.status.latency_data ++ [x],
            latency := (r.status.latency_data ++ [x]).sum /
              (((r.status.latency_data ++ [x]).length : Nat) : ℚ) } } := by
      unfold Rpc.update_latency
      rw [if_neg hnotge]
    obtain ⟨r', hfeed, hdata, hma, hlat, hnil⟩ :=
      feed_appends_and_averages xs
        { r with status := { r.status with
            latency_data := r.status.latency_data ++ [x],
            latency := (r.status.latency_data ++ [x]).sum /
              (((r.status.latency_data ++ [x]).length : Nat) : ℚ) } }
        (by
          simp only [List.length_append, List.length_cons, List.length_nil]
          simp only [List.length_cons] at hle
          omega)
    refine ⟨r', ?_, ?_, ?_, ?_, ?_⟩
    · show feed r (x :: xs) = some r'
      unfold feed
      rw [List.foldlM_cons, hu]
      exact hfeed
    · rw [hdata]
      simp
    · rw [hma]
    · intro _
      by_cases hxs : xs = []
      · subst hxs
        rw [hnil rfl]
      · rw [hlat hxs]
        dsimp only
        simp
    · intro h
      cases h

/-! ## The claims -/

/-- C1 (code bug): with exactly one eligible backend (`c1B`, route group 1,
at index 1 of `c1List`), `pick` does not return that backend: the source's
single-eligible branch returns `(list[0].clone(), Some(0))`, i.e. the
ineligible backend `c1A` and index 0, although its own comment says
"return the only element".  This theorem evaluates the code at the failing
input. -/
theorem c1_single_eligible_returns_slot_zero :
    (filterIndexed 1 c1List 0).length = 1 ∧
    c1A.group ≠ 1 ∧ c1B.group = 1 ∧
    pick c1List 1 1000 = some (c1List, c1A, some 0) := by
  decide

/-- C2 counterexample: both entries of `cex2` satisfy the fairness and
throttle conditions at time 1 and entry 1 has the strictly smaller latency
(`1.2 < 1.7`), yet `algo` chooses entry 0: the `as u64` ranking keys of the
two latencies collide (both are 1), the ranking keeps original order, and
the walk's last overwrite is the first-ranked entry.  The chosen backend is
therefore not the lowest-latency backend satisfying both conditions. -/
theorem c2_counterexample :
    (algo cex2 1).map Prod.snd = some 0 ∧
    satisfies cex2 1 0 ∧ satisfies cex2 1 1 ∧
    (cex2.getD 1 default).rpc.status.latency <
      (cex2.getD 0 default).rpc.status.latency := by
  decide

/-- C2 (amended): in the default algorithm, the chosen entry is a
condition-satisfying entry of minimal latency-cast-to-`u64` key among all
satisfying entries (the original claim said minimal *latency*, which fails
only because distinct latencies can share a key); if no entry satisfies
both conditions, the chosen entry has minimal key among all entries (the
fastest-ranked fallback). -/
theorem c2_amended_algo_prefers_fastest_satisfier
    {data : List RpcIndexed} {t : Nat} {data' : List RpcIndexed} {c : Nat}
    (hlen : 2 ≤ data.length) (h : algo data t = some (data', c)) :
    ((∃ i, i < data.length ∧ satisfies data t i) →
      satisfies data t c ∧
      ∀ i, i < data.length → satisfies data t i →
        keyAt data c ≤ keyAt data i) ∧
    ((∀ i, i < data.length → ¬ satisfies data t i) →
      ∀ i, i < data.length → keyAt data c ≤ keyAt data i) := by
  obtain ⟨hcI, _, _, _, _⟩ := algo_spec h
  constructor
  · rintro ⟨i, hil, hisat⟩
    cases hch : chosen data t with
    | none =>
      exfalso
      have hnone := List.find?_eq_none.mp hch i (mem_argsort.mpr hil)
      simp only [decide_eq_true_eq] at hnone
      exact hnone hisat
    | some j =>
      have hcj : c = j := by
        rw [hcI]
        unfold choiceIdx
        rw [hch]
      have hjsat : satisfies data t j := by
        have := List.find?_some hch
        simpa using this
      subst hcj
      refine ⟨hjsat, ?_⟩
      intro i' hi'l hi'sat
      exact find?_sorted_key_min (keyAt data) _ (argsort data)
        (argsort_sorted data) hch i' (mem_argsort.mpr hi'l)
        (by simpa using hi'sat)
  · intro hnone
    have hchn : chosen data t = none := by
      unfold chosen
      rw [List.find?_eq_none]
      intro x hx
      simp only [decide_eq_true_eq]
      exact hnone x (mem_argsort.mp hx)
    have hcH : c = (argsort data).headD 0 := by
      rw [hcI]
      unfold choiceIdx
      rw [hchn]
    cases hsort : argsort data with
    | nil =>
      exfalso
      have := argsort_length data
      rw [hsort] at this
      simp at this
      omega
    | cons i0 rest =>
      rw [hsort] at hcH
      simp only [List.headD_cons] at hcH
      subst hcH
      intro i hil
      exact argsort_head_min hsort i hil

/-- C2 witness: the amended theorem applied to the concrete two-entry pool
`wl` at time 1, where `algo` returns `(wlAfter, 0)`: both implications are
instantiated. -/
theorem c2_amended_witness :
    2 ≤ wl.length ∧ algo wl 1 = some (wlAfter, 0) ∧
    (((∃ i, i < wl.length ∧ satisfies wl 1 i) →
      satisfies wl 1 0 ∧
      ∀ i, i < wl.length → satisfies wl 1 i → keyAt wl 0 ≤ keyAt wl i) ∧
    ((∀ i, i < wl.length → ¬ satisfies wl 1 i) →
      ∀ i, i < wl.length → keyAt wl 0 ≤ keyAt wl i)) :=
  have h : algo wl 1 = some (wlAfter, 0) := by decide
  ⟨by decide, h, c2_amended_algo_prefers_fastest_satisfier (by decide) h⟩

/-- C3 counterexample: in `fbList` both backends are eligible with
pre-call `consecutive = 5`, and neither passes the throttle gate at time 40
(`40 - 0 > 50` is false); the fallback branch of `algo` then sets the
chosen backend's `consecutive` to `choice_consecutive + 1 = 1`, not to its
pre-call value plus one (which would be 6). -/
theorem c3_counterexample :
    (pick fbList 0 40).map (fun x => x.2.2) = some (some 0) ∧
    (fbList.getD 0 Rpc.default).consecutive = 5 ∧
    (pick fbList 0 40).map (fun x => (x.1.getD 0 Rpc.default).consecutive) =
      some 1 ∧
    (1 : Nat) ≠ 5 + 1 := by
  decide

/-- C3 (amended): after a `pick` through the default algorithm (two or more
eligible backends), every eligible backend other than the chosen one has
`consecutive = 0` and the chosen backend's `last_used` is the call's
timestamp; the chosen backend's `consecutive` is its pre-call value plus
one whenever some eligible backend satisfied both fairness conditions, and
1 (the initial `choice_consecutive = 0`, plus one) in the fallback case
where none did. -/
theorem c3_amended_pick_fairness_state {l : List Rpc} {g : RouteGroup}
    {t : Nat} {l' : List Rpc} {r : Rpc} {k : Nat}
    (h2 : 2 ≤ (filterIndexed g l 0).length)
    (hp : pick l g t = some (l', r, some k)) :
    (∀ j, j < l.length → (l.getD j Rpc.default).group = g → j ≠ k →
      (l'.getD j Rpc.default).consecutive = 0) ∧
    (l'.getD k Rpc.default).last_used = t ∧
    ((∃ j, j < l.length ∧ (l.getD j Rpc.default).group = g ∧
        satisfiesRpc (l.getD j Rpc.default) t) →
      (l'.getD k Rpc.default).consecutive =
        (l.getD k Rpc.default).consecutive + 1) ∧
    ((∀ j, j < l.length → (l.getD j Rpc.default).group = g →
        ¬ satisfiesRpc (l.getD j Rpc.default) t) →
      (l'.getD k Rpc.default).consecutive = 1) := by
  obtain ⟨hkl, hkg, hl'k, hr, hzero, hsome, hnone⟩ := pick_algo_detail h2 hp
  refine ⟨hzero, ?_, ?_, ?_⟩
  · rw [hl'k, hr]
  · intro hex
    rw [hl'k, hr]
    show chosenCC (filterIndexed g l 0) t + 1 =
      (l.getD k Rpc.default).consecutive + 1
    rw [hsome hex]
  · intro hno
    rw [hl'k, hr]
    show chosenCC (filterIndexed g l 0) t + 1 = 1
    rw [hnone hno]

/-- C3 witness: the amended theorem applied to the concrete pool `w3List`
(both backends eligible and satisfying the conditions at time 1), where
`pick` chooses index 0, bumps its `consecutive` from 2 to 3 and stamps its
`last_used`. -/
theorem c3_amended_witness :
    2 ≤ (filterIndexed 0 w3List 0).length ∧
    pick w3List 0 1 = some (w3After, mkRpc 1 5 3 0 1 0, some 0) ∧
    ((∀ j, j < w3List.length → (w3List.getD j Rpc.default).group = 0 →
        j ≠ 0 → (w3After.getD j Rpc.default).consecutive = 0) ∧
      (w3After.getD 0 Rpc.default).last_used = 1 ∧
      ((∃ j, j < w3List.length ∧ (w3List.getD j Rpc.default).group = 0 ∧
          satisfiesRpc (w3List.getD j Rpc.default) 1) →
        (w3After.getD 0 Rpc.default).consecutive =
          (w3List.getD 0 Rpc.default).consecutive + 1) ∧
      ((∀ j, j < w3List.length → (w3List.getD j Rpc.default).group = 0 →
          ¬ satisfiesRpc (w3List.getD j Rpc.default) 1) →
        (w3After.getD 0 Rpc.default).consecutive = 1)) :=
  have h : pick w3List 0 1 = some (w3After, mkRpc 1 5 3 0 1 0, some 0) := by
    decide
  have h2 : 2 ≤ (filterIndexed 0 w3List 0).length := by decide
  ⟨h2, h, c3_amended_pick_fairness_state h2 h⟩

/-- C4 counterexample: `argsort` on `cex2` (latencies `1.7` then `1.2`,
whose `u64` casts collide at key 1) returns `[0, 1]`, which is not
ascending by latency: the entry ranked second has the strictly smaller
latency.  The ordering is only ascending in the cast key, not in the
floating-point latency itself. -/
theorem c4_counterexample :
    argsort cex2 = [0, 1] ∧
    (cex2.getD 1 default).rpc.status.latency <
      (cex2.getD 0 default).rpc.status.latency := by
  decide

/-- C4 (amended): `argsort` returns a permutation of the indices
`0 .. n-1` ordered non-decreasing by the ordering key — the latency cast to
`u64` — and strictly ascending wherever the keys differ.  The original
claim's "ascending by latency" fails because the cast can collapse distinct
latencies (see the counterexample), and its stability part is not a
guarantee the code makes: the source's `sort_unstable_by_key` leaves the
relative order of equal keys unspecified, so only properties that hold for
every resolution of that tie order are asserted here. -/
theorem c4_amended_argsort_key_ordered (data : List RpcIndexed) :
    (argsort data).Perm (List.range data.length) ∧
    (argsort data).Pairwise (fun i j => keyAt data i ≤ keyAt data j) ∧
    (argsort data).Pairwise
      (fun i j => keyAt data i ≠ keyAt data j → keyAt data i < keyAt data j) :=
  ⟨argsort_perm data, argsort_sorted data,
    (argsort_sorted data).imp (fun h hne => lt_of_le_of_ne h hne)⟩

/-- C5 (code bug): `update_latency` on a default `Rpc` (window
`ma_length = 0`, empty history) panics: `len >= ma_length as usize` is
`0 >= 0`, so the code calls `Vec::remove(0)` on the empty history, an
out-of-bounds panic (`none` in the model) — the spec requires that this
call never panic. -/
theorem c5_update_latency_panics_on_default :
    Rpc.default.status.ma_length = 0 ∧
    Rpc.default.status.latency_data = [] ∧
    Rpc.default.update_latency 1 = none := by
  decide

/-- C6: with a window of at least 1, feeding `k ≤ window` samples from an
empty history leaves `latency` equal to their arithmetic mean (and the
history equal to the samples); one further sample on a full history first
evicts the oldest sample, keeps the history at exactly `window` entries,
and leaves `latency` the mean of the retained samples. -/
theorem c6_moving_average :
    (∀ (r : Rpc) (xs : List ℚ),
      1 ≤ f64AsU64 r.status.ma_length →
      r.status.latency_data = [] →
      1 ≤ xs.length → xs.length ≤ f64AsU64 r.status.ma_length →
      ∃ r', feed r xs = some r' ∧ r'.status.latency_data = xs ∧
        r'.status.latency = xs.sum / (xs.length : ℚ)) ∧
    (∀ (r : Rpc) (x : ℚ),
      1 ≤ f64AsU64 r.status.ma_length →
      r.status.latency_data.length = f64AsU64 r.status.ma_length →
      ∃ r', r.update_latency x = some r' ∧
        r'.status.latency_data = r.status.latency_data.tail ++ [x] ∧
        r'.status.latency_data.length = f64AsU64 r.status.ma_length ∧
        r'.status.latency = r'.status.latency_data.sum /
          (r'.status.latency_data.length : ℚ)) := by
  constructor
  · intro r xs hma hdat h1 h2
    obtain ⟨r', hf, hd, _, hl, _⟩ := feed_appends_and_averages xs r
      (by rw [hdat]; simpa using h2)
    have hxs : xs ≠ [] := by
      intro h
      rw [h] at h1
      simp at h1
    refine ⟨r', hf, by rw [hd, hdat]; simp, ?_⟩
    rw [hl hxs, hdat]
    simp
  · intro r x hma hfull
    have hge : r.status.latency_data.length ≥ f64AsU64 r.status.ma_length :=
      le_of_eq hfull.symm
    cases hdat : r.status.latency_data with
    | nil =>
      exfalso
      rw [hdat] at hfull
      simp at hfull
      omega
    | cons d ds =>
      have hu : r.update_latency x = some
          { r with status := { r.status with
              latency_data := ds ++ [x],
              latency := (ds ++ [x]).sum / (((ds ++ [x]).length : Nat) : ℚ) } } := by
        unfold Rpc.update_latency
        rw [if_pos hge]
        simp only [hdat]
      refine ⟨_, hu, rfl, ?_, rfl⟩
      show (ds ++ [x]).length = f64AsU64 r.status.ma_length
      rw [hdat] at hfull
      simp only [List.length_append, List.length_cons, List.length_nil] at hfull ⊢
      omega

/-- C6 witness: feeding `[1, 3]` into an empty window-2 backend gives
history `[1, 3]` and latency 2; one further sample `5` on the full history
`[1, 3]` evicts the 1, keeps 2 entries and averages `[3, 5]`. -/
theorem c6_witness :
    (1 ≤ f64AsU64 maRpc.status.ma_length ∧
      maRpc.status.latency_data = [] ∧
      1 ≤ ([1, 3] : List ℚ).length ∧
      ([1, 3] : List ℚ).length ≤ f64AsU64 maRpc.status.ma_length ∧
      ∃ r', feed maRpc [1, 3] = some r' ∧
        r'.status.latency_data = [1, 3] ∧
        r'.status.latency = ([1, 3] : List ℚ).sum / ((([1, 3] : List ℚ).length : Nat) : ℚ)) ∧
    (1 ≤ f64AsU64 maRpc2.status.ma_length ∧
      maRpc2.status.latency_data.length = f64AsU64 maRpc2.status.ma_length ∧
      ∃ r', maRpc2.update_latency 5 = some r' ∧
        r'.status.latency_data = maRpc2.status.latency_data.tail ++ [5] ∧
        r'.status.latency_data.length = f64AsU64 maRpc2.status.ma_length ∧
        r'.status.latency = r'.status.latency_data.sum /
          (r'.status.latency_data.length : ℚ)) :=
  ⟨⟨by decide, rfl, by decide, by decide,
      c6_moving_average.1 maRpc [1, 3] (by decide) rfl (by decide) (by decide)⟩,
    ⟨by decide, by decide,
      c6_moving_average.2 maRpc2 5 (by decide) (by decide)⟩⟩

/-- C7: a successful `pick` returns an absent index exactly when no backend
in the pool has the requested route group, and in that case the returned
backend value is `Rpc::default()` and the pool is untouched; the result
type carries no error variant — absence is the only signal. -/
theorem c7_pick_absent_iff {l : List Rpc} {g : RouteGroup} {t : Nat}
    {l' : List Rpc} {r : Rpc} {idx : Option Nat}
    (hp : pick l g t = some (l', r, idx)) :
    (idx = none ↔ ∀ x ∈ l, x.group ≠ g) ∧
    (idx = none → r = Rpc.default ∧ l' = l) := by
  unfold pick at hp
  dsimp only at hp
  by_cases hlen1 : (filterIndexed g l 0).length = 1
  · rw [if_pos hlen1] at hp
    cases h0 : l[0]? with
    | none => rw [h0] at hp; exact Option.noConfusion hp
    | some r0 =>
      rw [h0] at hp
      simp only [Option.some.injEq, Prod.mk.injEq] at hp
      obtain ⟨h1, h2, h3⟩ := hp
      constructor
      · constructor
        · intro hid
          exact Option.noConfusion (h3.trans hid)
        · intro hall
          exfalso
          have : filterIndexed g l 0 = [] := filterIndexed_eq_nil_iff.mpr hall
          rw [this] at hlen1
          simp at hlen1
      · intro hid
        exact absurd (h3.trans hid) (Option.noConfusion)
  · rw [if_neg hlen1] at hp
    by_cases hlen0 : (filterIndexed g l 0).length = 0
    · rw [if_pos hlen0] at hp
      simp only [Option.some.injEq, Prod.mk.injEq] at hp
      obtain ⟨h1, h2, h3⟩ := hp
      have hnil : filterIndexed g l 0 = [] := List.length_eq_zero.mp hlen0
      constructor
      · exact ⟨fun _ => filterIndexed_eq_nil_iff.mp hnil, fun _ => h3.symm⟩
      · intro _
        exact ⟨h2.symm, h1.symm⟩
    · rw [if_neg hlen0] at hp
      cases halgo : algo (filterIndexed g l 0) t with
      | none => rw [halgo] at hp; exact Option.noConfusion hp
      | some res =>
        obtain ⟨fl, c⟩ := res
        rw [halgo] at hp
        dsimp only at hp
        cases hget : fl[c]? with
        | none => rw [hget] at hp; exact Option.noConfusion hp
        | some picked =>
          rw [hget] at hp
          simp only [Option.some.injEq, Prod.mk.injEq] at hp
          obtain ⟨h1, h2, h3⟩ := hp
          constructor
          · constructor
            · intro hid
              exact Option.noConfusion (h3.trans hid)
            · intro hall
              exfalso
              apply hlen0
              rw [filterIndexed_eq_nil_iff.mpr hall]
              rfl
          · intro hid
            exact absurd (h3.trans hid) (Option.noConfusion)

/-- C7 witness: a pool whose only backend is in route group 0, queried for
route group 7: `pick` succeeds with an absent index, the default backend
value and an untouched pool. -/
theorem c7_witness :
    pick [c1A] 7 0 = some ([c1A], Rpc.default, none) ∧
    (((none : Option Nat) = none ↔ ∀ x ∈ [c1A], x.group ≠ 7) ∧
      ((none : Option Nat) = none → Rpc.default = Rpc.default ∧ [c1A] = [c1A])) :=
  have h : pick [c1A] 7 0 = some ([c1A], Rpc.default, none) := by decide
  ⟨h, c7_pick_absent_iff h⟩

/-- C8 counterexample: `pick` on `c1List` for route group 1 returns index
0, but the backend at position 0 of the input list is `c1A`, whose route
group is 0, not the requested 1 — the single-eligible branch returns
`Some(0)` regardless of where the eligible backend sits. -/
theorem c8_counterexample :
    (pick c1List 1 1000).map (fun x => x.2.2) = some (some 0) ∧
    (c1List.getD 0 Rpc.default).group ≠ 1 := by
  decide

/-- C8 (amended): whenever `pick` returns a present index `i`, that index
is in range and the post-call pool slot `i` holds exactly the backend whose
copy was returned; moreover, unless the buggy single-eligible branch ran
(exactly one eligible backend), the backend at slot `i` has the requested
route group. -/
theorem c8_amended_index_addresses_returned_copy {l : List Rpc}
    {g : RouteGroup} {t : Nat} {l' : List Rpc} {r : Rpc} {k : Nat}
    (hp : pick l g t = some (l', r, some k)) :
    k < l.length ∧ l'.getD k Rpc.default = r ∧
    ((filterIndexed g l 0).length ≠ 1 → (l.getD k Rpc.default).group = g) := by
  rcases pick_algo_cases hp with ⟨h1len, hk0, hl'l, h0⟩ |
    ⟨h2len, fl, c, halgo, hcfl, hflc, hl'⟩
  · subst hk0
    obtain ⟨hlt, hv⟩ := List.getElem?_eq_some_iff.mp h0
    refine ⟨hlt, ?_, fun h => absurd h1len h⟩
    rw [hl'l, getDR_eq_getElem l hlt]
    exact hv
  · obtain ⟨hkl, hkg, hl'k, _, _, _, _⟩ := pick_algo_detail h2len hp
    exact ⟨hkl, hl'k, fun _ => hkg⟩

/-- C8 witness: the amended theorem applied to `pick w3List 0 1`, which
returns index 0: slot 0 of the updated pool holds the returned copy and is
in the requested route group. -/
theorem c8_amended_witness :
    pick w3List 0 1 = some (w3After, mkRpc 1 5 3 0 1 0, some 0) ∧
    (0 < w3List.length ∧
      w3After.getD 0 Rpc.default = mkRpc 1 5 3 0 1 0 ∧
      ((filterIndexed 0 w3List 0).length ≠ 1 →
        (w3List.getD 0 Rpc.default).group = 0)) :=
  have h : pick w3List 0 1 = some (w3After, mkRpc 1 5 3 0 1 0, some 0) := by
    decide
  ⟨h, c8_amended_index_addresses_returned_copy h⟩

/-- C9: if every entry handed to the default algorithm has
`last_used ≤ time` (the timestamp read at the start of the call), the
checked `u128` subtraction `time - last_used` never underflows — the Rust
`&&` short-circuit only ever evaluates it under that guard's reach — and
`algo` completes with a result instead of panicking. -/
theorem c9_no_underflow {data : List RpcIndexed} {t : Nat}
    (hne : data ≠ []) (hlu : ∀ e ∈ data, e.rpc.last_used ≤ t) :
    ∃ res, algo data t = some res :=
  Option.isSome_iff_exists.mp (algo_isSome hne hlu)

/-- C9 witness: the concrete pool `wl` at time 1 (all `last_used = 0`). -/
theorem c9_witness :
    wl ≠ [] ∧ (∀ e ∈ wl, e.rpc.last_used ≤ 1) ∧
    ∃ res, algo wl 1 = some res :=
  ⟨by decide, by decide, c9_no_underflow (by decide) (by decide)⟩

/-- C10: `argsort` returns a permutation of the indices `0 .. n-1` (each
occurring exactly once, being a permutation of `range n`), and along the
returned order the latencies cast to `u64` are non-decreasing. -/
theorem c10_argsort_perm_and_key_monotone (data : List RpcIndexed) :
    (argsort data).Perm (List.range data.length) ∧
    (argsort data).Pairwise (fun i j => keyAt data i ≤ keyAt data j) :=
  ⟨argsort_perm data, argsort_sorted data⟩

end Blutgang
